import Mathlib

/-!
Verification of the push planner / privacy gate and the time formatting
utilities of the repository.

The repository sources contain the time utilities (`cli/src/time_util.rs`)
and the integration tests of the git push privacy gate
(`cli/tests/test_git_private_commits.rs`).  The push planner itself is not
among the sources, so it is modelled from the specification (§2–§4, §6–§8),
with the immutability interaction pinned down by the repository's own test
`test_git_private_commits_are_not_checked_if_immutable`.
-/

namespace JJ

/-- Modelled from the spec: the `CommitGraph` collaborator (§2, §6) of the
push planner, which is not among the repository sources.  A commit graph in
topological numbering: the parents of commit `c` are the entries of `par`
at index `c`, restricted to ids smaller than `c`.  Every finite commit DAG
admits such a numbering, and the restriction makes the graph well founded
by construction. -/
structure Graph where
  par : List (List Nat)

deriving DecidableEq

/-- Embeds `CommitGraph.parents(id)` (§6): ordered parent ids of a commit. -/
def Graph.parents (g : Graph) (c : Nat) : List Nat :=
  (g.par.getD c []).filter (fun p => decide (p < c))

/-- Reflexive-transitive reachability along parent edges: `Reach g c a`
holds iff `a` is `c` itself or an ancestor of `c` in the commit graph. -/
inductive Reach (g : Graph) : Nat → Nat → Prop where
  | refl (c : Nat) : Reach g c c
  | step {c p a : Nat} : p ∈ g.parents c → Reach g p a → Reach g c a

/-- Executable ancestry test, with explicit fuel; parents have strictly
smaller ids, so `fuel = c` suffices when starting from commit `c`. -/
def reachesFuel (g : Graph) : Nat → Nat → Nat → Bool
  | 0, c, a => c == a
  | fuel+1, c, a => c == a || (g.parents c).any (fun p => reachesFuel g fuel p a)

/-- Embeds `CommitGraph.is_ancestor` (§6), reflexively: `a` is `c` or an ancestor of `c`. -/
def Graph.reaches (g : Graph) (c a : Nat) : Bool := reachesFuel g c c a

/-- Embeds `RemoteTrackingStore.known_commits_closure(remote)` (§6), computed
lazily from the remote's known heads (§3 `RemoteKnownCommits`): a commit is
in the closure iff it is reachable from some known head. -/
def knownClosure (g : Graph) (heads : List Nat) (c : Nat) : Bool :=
  heads.any (fun h => g.reaches h c)

/-- Modelled from the spec: the traversal of §4.2 `PushSetResolver` from a
single start commit, following parent edges and short-circuiting (not
expanding, not collecting) any node already in the remote's known-commit
closure.  `fuel` bounds recursion depth; parents have smaller ids, so
`fuel = c` suffices for start commit `c`. -/
def collectFuel (g : Graph) (known : Nat → Bool) : Nat → Nat → List Nat
  | 0, c => if known c then [] else [c]
  | fuel+1, c =>
    if known c then []
    else c :: (g.parents c).flatMap (fun p => collectFuel g known fuel p)

/-- Modelled from the spec: §4.2 `PushSetResolver` — the commits that must
be transferred for the requested new targets, i.e. the traversal from each
target with duplicates removed (a commit is added at most once even though
reachable from multiple targets). -/
def pushSetResolve (g : Graph) (known : Nat → Bool) (targets : List Nat) : List Nat :=
  (targets.flatMap (fun t => collectFuel g known t t)).dedup

/-- A requested bookmark change for one remote (§3 `PushPlan`
`bookmark_updates` entries): name, last-known target on the remote, and
requested new target (`none` encodes deletion/absence). -/
structure BookmarkUpdate where
  name : String
  old : Option Nat
  new : Option Nat

deriving DecidableEq

/-- Spec §3 `PushPlan`: what the transport is asked to transfer for one remote. -/
structure PushPlan where
  remote : String
  bookmark_updates : List BookmarkUpdate
  commits_to_send : List Nat

deriving DecidableEq

/-- One rendered diagnostic of a rejected push (§4.3 Step 5): it names the
offending commit and carries the configured predicate text. -/
structure Diagnostic where
  commit : Nat
  predicate_text : String

deriving DecidableEq

/-- Spec §3 / §6 `RejectedPush`: the structured rejection carrying the private
roots and the per-root diagnostics for the responsible remote. -/
structure RejectedPush where
  remote : String
  private_roots : List Nat
  diagnostics : List Diagnostic

deriving DecidableEq

/-- Result of planning one remote's push: a transferable plan or a
structured rejection. -/
inductive PlanResult where
  | ok (plan : PushPlan)
  | rejected (r : RejectedPush)

deriving DecidableEq

/-- Spec §6 `plan_push` options. -/
structure PushOptions where
  allow_new : Bool
  allow_private : Bool
  force : Bool

deriving DecidableEq

/-- Modelled from the spec: §4.3 Step 1 — the configured private-commits
predicate (evaluated by the external `RevsetEvaluator`) intersected with
the push set, exactly as the spec words it (no immutability filter). -/
def privateInPushSet (isPrivate : Nat → Bool) (pushSet : List Nat) : List Nat :=
  pushSet.filter isPrivate

/-- The private commits the gate actually checks: the private-commits
predicate restricted to mutable commits, intersected with the push set.
The restriction to mutable commits is pinned down by the repository test
`test_git_private_commits_are_not_checked_if_immutable`: with
`immutable_heads()` set to `all()`, a push of a commit matched by
`git.private-commits` succeeds with no override. -/
def mutablePrivateInPushSet (isPrivate isImmutable : Nat → Bool)
    (pushSet : List Nat) : List Nat :=
  pushSet.filter (fun c => isPrivate c && !isImmutable c)

/-- Modelled from the spec: §4.3 Step 4 — a commit of the checked private
set is a root iff none of its parents is in that set. -/
def privateRoots (g : Graph) (pip : List Nat) : List Nat :=
  pip.filter (fun c => (g.parents c).all (fun p => !(decide (p ∈ pip))))

/-- An ancestor chain that stays inside the set `S`: every node on the way
from `c` down to `r` (both included) belongs to `S` and consecutive nodes
are parent edges of the graph. -/
inductive ChainIn (g : Graph) (S : List Nat) : Nat → Nat → Prop where
  | refl {c : Nat} : c ∈ S → ChainIn g S c c
  | step {c p r : Nat} : c ∈ S → p ∈ g.parents c → ChainIn g S p r → ChainIn g S c r

/-- Modelled from the spec: §4.3 `PrivacyGate` + §4.4 `PushPlanAssembler`
(`plan_push`, §6) for a single remote.  The union of the push sets of all
requested bookmark updates for the remote is computed by `PushSetResolver`
(§4.2); the gate evaluates the private-commits predicate over it before
any transfer, passes when nothing (mutable) is private or the
`allow_private` override is given, and otherwise rejects the remote's
entire push with one diagnostic per private root, naming the commit and
the configured predicate text (§4.3 Step 5).  The restriction of the gate
to mutable commits follows the repository test
`test_git_private_commits_are_not_checked_if_immutable`. -/
def plan_push (g : Graph) (isPrivate isImmutable : Nat → Bool)
    (predicate_text : String) (remote : String) (updates : List BookmarkUpdate)
    (knownHeads : List Nat) (opts : PushOptions) : PlanResult :=
  let targets := updates.filterMap (fun u => u.new)
  let pushSet := pushSetResolve g (knownClosure g knownHeads) targets
  let checked := mutablePrivateInPushSet isPrivate isImmutable pushSet
  if checked.isEmpty || opts.allow_private then
    .ok ⟨remote, updates, pushSet⟩
  else
    let roots := privateRoots g checked
    .rejected ⟨remote, roots, roots.map (fun c => ⟨c, predicate_text⟩)⟩

/-- The per-remote planning request of one `plan_push` invocation: remote
name, requested bookmark updates, and that remote's known heads (§3
`RemoteKnownCommits`). -/
structure RemoteRequest where
  remote : String
  updates : List BookmarkUpdate
  knownHeads : List Nat

deriving DecidableEq

/-- Modelled from the spec: §4.4 — one invocation planning several remotes;
each remote is planned independently from its own tracking state. -/
def plan_push_all (g : Graph) (isPrivate isImmutable : Nat → Bool)
    (predicate_text : String) (reqs : List RemoteRequest) (opts : PushOptions) :
    List (String × PlanResult) :=
  reqs.map (fun r =>
    (r.remote, plan_push g isPrivate isImmutable predicate_text r.remote
      r.updates r.knownHeads opts))

/-- Modelled from the spec: §5/§7 — a whole planning session against a
tracking store (known heads per remote name).  The planner only reads the
store and returns it unchanged; only the transport mutates it after a
confirmed transfer. -/
def plan_push_session (g : Graph) (isPrivate isImmutable : Nat → Bool)
    (predicate_text : String) (reqs : List (String × List BookmarkUpdate))
    (opts : PushOptions) (tracking : List (String × List Nat)) :
    List (String × PlanResult) × List (String × List Nat) :=
  (reqs.map (fun r =>
     (r.1, plan_push g isPrivate isImmutable predicate_text r.1 r.2
       (((tracking.find? (fun e => e.1 == r.1)).map (fun e => e.2)).getD [])
       opts)),
   tracking)

/-- Abbreviation used throughout: the union push set of one remote's
requested updates, as `plan_push` computes it. -/
def requestPushSet (g : Graph) (heads : List Nat) (updates : List BookmarkUpdate) : List Nat :=
  pushSetResolve g (knownClosure g heads) (updates.filterMap (fun u => u.new))

/-- Concrete scenario of `test_git_private_commits_block_pushing` and
`test_git_private_commits_are_not_checked_if_immutable`: commit 0 is
"public 1", commit 1 is "public 2" (the remote's `main`), commit 2 is
"private 1"; `main` moves from 1 to 2; the remote already knows commit 1. -/
def demoGraph : Graph := ⟨[[], [0], [1]]⟩

def demoPrivate : Nat → Bool := fun c => c == 2

def demoUpdates : List BookmarkUpdate := [⟨"main", some 1, some 2⟩]

def allImmutable : Nat → Bool := fun _ => true

def noneImmutable : Nat → Bool := fun _ => false

/-- Concrete scenario for C2: a root commit 0 and a private commit 1 on
top of it, pushed as a brand-new bookmark to a remote that knows nothing. -/
def tinyGraph : Graph := ⟨[[], [0]]⟩

def tinyPrivate : Nat → Bool := fun c => c == 1

def tinyUpdates : List BookmarkUpdate := [⟨"main", none, some 1⟩]

/-- Concrete scenario of
`test_git_private_commits_already_on_the_remote_do_not_block_push`:
commit 2 is private but already known on the remote (a head of its known
closure); a new bookmark targets commit 3, a child of 2, reaching the
private commit via a new path. -/
def knownGraph : Graph := ⟨[[], [0], [1], [2]]⟩

def knownPrivate : Nat → Bool := fun c => c == 2

def knownUpdates : List BookmarkUpdate := [⟨"bookmark2", none, some 3⟩]

/-- Concrete scenario of
`test_git_private_commits_not_directly_in_line_block_pushing`: commit 1 is
a private commit descending from the root, commit 3 is a public merge of
the public commit 2 (the remote's `main`) and commit 1; `bookmark1`
targets 3.  The private commit is not directly in the bookmark's line yet
roots the rejection. -/
def mergeGraph : Graph := ⟨[[], [0], [0], [2, 1]]⟩

def mergePrivate : Nat → Bool := fun c => c == 1

def mergeUpdates : List BookmarkUpdate := [⟨"bookmark1", none, some 3⟩]

/-- Concrete divergent-remote session of
`test_git_private_commits_are_evaluated_separately_for_each_remote`: the
same `main` move from 1 to 3 is requested for two remotes; `origin`
already knows commit 3 (and hence the private commit 2 below it), while
`other` only knows commit 1. -/
def divergentRequests : List RemoteRequest :=
  [⟨"origin", [⟨"main", some 1, some 3⟩], [3]⟩,
   ⟨"other", [⟨"main", some 1, some 3⟩], [1]⟩]

end JJ

namespace TimeUtil

/-- chrono's `format::Item`, the parsed pieces of a strftime format
string, as consumed by `cli/src/time_util.rs`.  The payloads of `Numeric`
and `Fixed` are opaque specifier codes here. -/
inductive FItem where
  | literal (s : String)
  | ownedLiteral (s : String)
  | space (s : String)
  | ownedSpace (s : String)
  | numeric (spec : Nat) (pad : Nat)
  | fixed (spec : Nat)
  | error

deriving DecidableEq

/-- Embeds `FormattingItems` of `time_util.rs`: parsed formatting items which
should never contain an error. -/
structure FormattingItems where
  items : List FItem

deriving DecidableEq

/-- The per-item map of `FormattingItems::parse`: `Item::Error` becomes
`None`, everything else is kept. -/
def itemOk (item : FItem) : Option FItem :=
  match item with
  | .error => none
  | other => some other

/-- The `collect::<Option<_>>()` loop of `FormattingItems::parse`: fails
as a whole as soon as one item maps to `None`. -/
def collectNonError : List FItem → Option (List FItem)
  | [] => some []
  | item :: rest =>
    match itemOk item with
    | none => none
    | some it =>
      match collectNonError rest with
      | none => none
      | some items => some (it :: items)

/-- Embeds `FormattingItems::parse` of `time_util.rs`.  The external tokenizer
`StrftimeItems::new(format)` is represented by its output `tokenized`;
the function itself rejects any tokenization containing an error item. -/
def FormattingItems.parse (tokenized : List FItem) : Option FormattingItems :=
  match collectNonError tokenized with
  | none => none
  | some items => some ⟨items⟩

/-- Embeds `FormattingItems::into_owned` of `time_util.rs`: literals and spaces
become owned, the rest is copied; an error item (which should not exist)
is copied unchanged. -/
def FormattingItems.into_owned (f : FormattingItems) : FormattingItems :=
  ⟨f.items.map (fun item =>
    match item with
    | .literal s => .ownedLiteral s
    | .ownedLiteral s => .ownedLiteral s
    | .space s => .ownedSpace s
    | .ownedSpace s => .ownedSpace s
    | .numeric spec pad => .numeric spec pad
    | .fixed spec => .fixed spec
    | .error => .error)⟩

/-- Embeds `jj_lib::backend::Timestamp`: milliseconds since the epoch
(`timestamp.0`, an `i64`) and a timezone offset in minutes (`tz_offset`,
an `i32`). -/
structure Timestamp where
  millis : Int
  tz_offset : Int

deriving DecidableEq

/-- The `TimestampOutOfRange` error of `time_util.rs`. -/
inductive TimestampOutOfRange where
  | mk

deriving DecidableEq

/-- chrono's datetime range in seconds since the epoch: `NaiveDate::MIN`
is January 1 of astronomical year -262144 and `NaiveDate::MAX` is
December 31 of year 262143; `Utc.timestamp_opt` returns
`LocalResult::None` outside it. -/
def chronoMinSecs : Int := -8334632937600

/-- Upper end of chrono's datetime range, in seconds since the epoch. -/
def chronoMaxSecs : Int := 8210298412799

/-- chrono `DateTime<FixedOffset>` as used by `time_util.rs`: the instant
(seconds and subsecond nanoseconds since the epoch) plus the display
offset in seconds. -/
structure ChronoDateTime where
  secs : Int
  nanos : Int
  offset_secs : Int

deriving DecidableEq

/-- Embeds `datetime_from_timestamp` of `time_util.rs`: splits the millisecond
timestamp with `div_euclid` and `rem_euclid`, fails with
`TimestampOutOfRange` when chrono's `timestamp_opt` is out of range, and
attaches `FixedOffset::east_opt(tz_offset * 60)`, falling back to UTC
when that offset is outside chrono's strict ±24h bound. -/
def datetime_from_timestamp (context : Timestamp) :
    Except TimestampOutOfRange ChronoDateTime :=
  let secs := context.millis.ediv 1000
  let nanos := context.millis.emod 1000 * 1000000
  if chronoMinSecs ≤ secs ∧ secs ≤ chronoMaxSecs then
    let offset := context.tz_offset * 60
    .ok ⟨secs, nanos, if -86400 < offset ∧ offset < 86400 then offset else 0⟩
  else
    .error .mk

/-- Rendering one formatting item, following chrono's documented contract
for `DelayedFormat`: formatting items containing `Item::Error` fails (and
`to_string` then panics), every other item renders to some string — the
concrete digits chrono produces are external detail, represented by a
total stand-in. -/
def renderItem (dt : ChronoDateTime) (item : FItem) : Option String :=
  match item with
  | .literal s => some s
  | .ownedLiteral s => some s
  | .space s => some s
  | .ownedSpace s => some s
  | .numeric spec pad => some (toString spec ++ toString pad ++ toString dt.secs)
  | .fixed spec => some (toString spec ++ toString dt.offset_secs)
  | .error => none

/-- Rendering a whole item list (`format_with_items`), failing if any
single item fails. -/
def renderAll (dt : ChronoDateTime) : List FItem → Option (List String)
  | [] => some []
  | item :: rest =>
    match renderItem dt item with
    | none => none
    | some s =>
      match renderAll dt rest with
      | none => none
      | some ss => some (s :: ss)

/-- Embeds `format_absolute_timestamp_with` of `time_util.rs`, kept total by
making the potential panic of `format_with_items(..).to_string()`
explicit: the outer `none` is the panic, `some (.error e)` the `Err`
return and `some (.ok s)` the `Ok` return. -/
def format_absolute_timestamp_with (timestamp : Timestamp)
    (format : FormattingItems) : Option (Except TimestampOutOfRange String) :=
  match datetime_from_timestamp timestamp with
  | .error e => some (.error e)
  | .ok dt =>
    match renderAll dt format.items with
    | none => none
    | some parts => some (.ok (String.join parts))

/-- The jiff error type, collapsed to a single value. -/
inductive JiffError where
  | mk

deriving DecidableEq

/-- A `jiff::Zoned` with a fixed-offset timezone: the instant plus the
offset in seconds. -/
structure JiffZoned where
  second : Int
  nano : Int
  offset_secs : Int

deriving DecidableEq

/-- jiff's documented `tz::Offset` bound: ±25:59:59, i.e. ±93599 seconds. -/
def jiffMaxOffsetSecs : Int := 93599

/-- jiff's documented `Timestamp` second range (an instant representable
in every legal offset between -9999-01-01 and 9999-12-31): lower end. -/
def jiffMinSecs : Int := -377705023201

/-- Upper end of jiff's documented `Timestamp` second range. -/
def jiffMaxSecs : Int := 253402207200

/-- Embeds `timestamp_to_jiff` of `time_util.rs`: builds a fixed-offset timezone
(`Offset::from_seconds(tz_offset * 60)`, failing outside jiff's offset
range) and a jiff timestamp from the euclidean millisecond split
(`jiff::Timestamp::new`, failing outside jiff's timestamp range), then
zones the instant. -/
def timestamp_to_jiff (value : Timestamp) : Except JiffError JiffZoned :=
  let offset := value.tz_offset * 60
  if -jiffMaxOffsetSecs ≤ offset ∧ offset ≤ jiffMaxOffsetSecs then
    let second := value.millis.ediv 1000
    let nano := value.millis.emod 1000 * 1000000
    if jiffMinSecs ≤ second ∧ second ≤ jiffMaxSecs then
      .ok ⟨second, nano, offset⟩
    else
      .error .mk
  else
    .error .mk

/-- The unit bounds `format_duration` chooses for the span. -/
inductive JUnit where
  | year
  | day
  | hour
  | minute
  | second

deriving DecidableEq

/-- Numeric code of a unit, for the rendering stand-in. -/
def unitCode : JUnit → Nat
  | .year => 4
  | .day => 3
  | .hour => 2
  | .minute => 1
  | .second => 0

/-- Stand-in for jiff's span computation (`a.until(..)`) and the debug
rendering of the resulting span followed by " ago"; the exact digits are
external jiff behavior, and claim C10 concerns only the two `unwrap`
calls on `timestamp_to_jiff`, which `format_duration` makes explicit. -/
def renderAgo (a b : JiffZoned) (unitMin unitMax : JUnit) : String :=
  toString (unitCode unitMin) ++ toString (unitCode unitMax) ++
    toString (b.second - a.second) ++ " ago"

/-- Embeds `format_duration` of `time_util.rs`, with its panics made explicit as
the outer `none`: the chrono duration is computed first (evaluating `to`
then `from`, as the source does) and its `to_std` conversion — which
fails exactly on negative durations — is mapped to `TimestampOutOfRange`;
then both `timestamp_to_jiff(..).unwrap()` calls panic when jiff's
construction fails; finally the unit bounds are selected from the jiff
duration and the span is rendered. -/
def format_duration (fromTs toTs : Timestamp) :
    Option (Except TimestampOutOfRange String) :=
  match datetime_from_timestamp toTs with
  | .error e => some (.error e)
  | .ok dtTo =>
    match datetime_from_timestamp fromTs with
    | .error e => some (.error e)
    | .ok dtFrom =>
      let durNanos := (dtTo.secs * 1000000000 + dtTo.nanos) -
        (dtFrom.secs * 1000000000 + dtFrom.nanos)
      if durNanos < 0 then some (.error .mk)
      else
        match timestamp_to_jiff fromTs with
        | .error _ => none
        | .ok a =>
          match timestamp_to_jiff toTs with
          | .error _ => none
          | .ok b =>
            let dur := (b.second * 1000000000 + b.nano) -
              (a.second * 1000000000 + a.nano)
            let hours := dur / 3600000000000
            let mins := dur / 60000000000
            let units : JUnit × JUnit :=
              if hours > 23 then (.day, .year)
              else if hours > 0 then (.hour, .hour)
              else if mins > 0 then (.minute, .minute)
              else (.second, .second)
            some (.ok (renderAgo a b units.1 units.2))

deriving instance DecidableEq for Except

/-- The timestamp refuting C10: UTC offset 1560 minutes (26 hours). -/
def panicTimestamp : Timestamp := ⟨0, 1560⟩

end TimeUtil

namespace JJ

theorem parents_lt (g : Graph) {c p : Nat} (hp : p ∈ g.parents c) : p < c := by
  have h := List.mem_filter.mp hp
  exact of_decide_eq_true h.2

theorem Reach.le {g : Graph} {c a : Nat} (h : Reach g c a) : a ≤ c := by
  induction h with
  | refl c => exact Nat.le_refl c
  | step hp _ ih => exact Nat.le_trans ih (Nat.le_of_lt (parents_lt g hp))

theorem Reach.trans {g : Graph} {a b c : Nat} (h1 : Reach g a b) (h2 : Reach g b c) :
    Reach g a c := by
  induction h1 with
  | refl _ => exact h2
  | step hp _ ih => exact Reach.step hp (ih h2)

theorem reachesFuel_sound (g : Graph) :
    ∀ fuel c a, reachesFuel g fuel c a = true → Reach g c a := by
  intro fuel
  induction fuel with
  | zero =>
    intro c a h
    have : c = a := by simpa [reachesFuel] using h
    exact this ▸ Reach.refl c
  | succ fuel ih =>
    intro c a h
    simp only [reachesFuel, Bool.or_eq_true, beq_iff_eq, List.any_eq_true] at h
    rcases h with h | ⟨p, hp, hr⟩
    · exact h ▸ Reach.refl c
    · exact Reach.step hp (ih p a hr)

theorem reachesFuel_complete (g : Graph) :
    ∀ fuel c a, c ≤ fuel → Reach g c a → reachesFuel g fuel c a = true := by
  intro fuel
  induction fuel with
  | zero =>
    intro c a hc h
    cases h with
    | refl c => simp [reachesFuel]
    | step hp hr =>
      exact absurd (parents_lt g hp) (by omega)
  | succ fuel ih =>
    intro c a hc h
    cases h with
    | refl c => simp [reachesFuel]
    | step hp hr =>
      rename_i p
      have hplt : p < c := parents_lt g hp
      simp only [reachesFuel, Bool.or_eq_true, beq_iff_eq, List.any_eq_true]
      exact Or.inr ⟨p, hp, ih p a (by omega) hr⟩

theorem reaches_iff (g : Graph) (c a : Nat) : g.reaches c a = true ↔ Reach g c a :=
  ⟨reachesFuel_sound g c c a, reachesFuel_complete g c c a (Nat.le_refl c)⟩

theorem knownClosure_iff (g : Graph) (heads : List Nat) (c : Nat) :
    knownClosure g heads c = true ↔ ∃ h ∈ heads, Reach g h c := by
  simp only [knownClosure, List.any_eq_true, reaches_iff]

theorem knownClosure_closed (g : Graph) (heads : List Nat) {d x : Nat}
    (hd : knownClosure g heads d = true) (hr : Reach g d x) :
    knownClosure g heads x = true := by
  rcases (knownClosure_iff g heads d).mp hd with ⟨h, hh, hreach⟩
  exact (knownClosure_iff g heads x).mpr ⟨h, hh, hreach.trans hr⟩

theorem collectFuel_sound (g : Graph) (known : Nat → Bool) :
    ∀ fuel c x, x ∈ collectFuel g known fuel c → Reach g c x ∧ known x = false := by
  intro fuel
  induction fuel with
  | zero =>
    intro c x hx
    by_cases hk : known c = true
    · simp [collectFuel, hk] at hx
    · rw [collectFuel, if_neg hk] at hx
      have hxc : x = c := by simpa using hx
      subst hxc
      exact ⟨Reach.refl x, by simpa using hk⟩
  | succ fuel ih =>
    intro c x hx
    by_cases hk : known c = true
    · simp [collectFuel, hk] at hx
    · rw [collectFuel, if_neg hk] at hx
      rcases List.mem_cons.mp hx with h | h
      · subst h
        exact ⟨Reach.refl x, by simpa using hk⟩
      · rcases List.mem_flatMap.mp h with ⟨p, hp, hmem⟩
        rcases ih p x hmem with ⟨hr, hkx⟩
        exact ⟨Reach.step hp hr, hkx⟩

theorem collectFuel_complete (g : Graph) (known : Nat → Bool)
    (hcl : ∀ d x, known d = true → Reach g d x → known x = true) :
    ∀ c x, Reach g c x → known x = false → ∀ fuel, c ≤ fuel →
      x ∈ collectFuel g known fuel c := by
  intro c x hr
  induction hr with
  | refl c =>
    intro hkx fuel _
    cases fuel with
    | zero => simp [collectFuel, hkx]
    | succ fuel => simp [collectFuel, hkx]
  | step hp hr ih =>
    rename_i c p a
    intro hkx fuel hfuel
    have hkc : known c = false := by
      by_contra h
      have : known c = true := by simpa using h
      have := hcl c a this (Reach.step hp hr)
      simp [this] at hkx
    have hplt : p < c := parents_lt g hp
    cases fuel with
    | zero => omega
    | succ fuel =>
      rw [collectFuel, if_neg (by simp [hkc])]
      refine List.mem_cons.mpr (Or.inr ?_)
      exact List.mem_flatMap.mpr ⟨p, hp, ih hkx fuel (by omega)⟩

theorem mem_pushSetResolve (g : Graph) (known : Nat → Bool)
    (hcl : ∀ d x, known d = true → Reach g d x → known x = true)
    (targets : List Nat) (x : Nat) :
    x ∈ pushSetResolve g known targets ↔
      (∃ t ∈ targets, Reach g t x) ∧ known x = false := by
  unfold pushSetResolve
  rw [List.mem_dedup, List.mem_flatMap]
  constructor
  · rintro ⟨t, ht, hmem⟩
    rcases collectFuel_sound g known t t x hmem with ⟨hr, hk⟩
    exact ⟨⟨t, ht, hr⟩, hk⟩
  · rintro ⟨⟨t, ht, hr⟩, hk⟩
    exact ⟨t, ht, collectFuel_complete g known hcl t x hr hk t (Nat.le_refl t)⟩

/-- The push set for a remote, as computed by the planner: traversal from
the requested new targets, short-circuiting at the remote's known-commit
closure. -/
theorem mem_pushSet_known (g : Graph) (heads targets : List Nat) (x : Nat) :
    x ∈ pushSetResolve g (knownClosure g heads) targets ↔
      (∃ t ∈ targets, Reach g t x) ∧ ¬ (∃ h ∈ heads, Reach g h x) := by
  rw [mem_pushSetResolve g (knownClosure g heads)
    (fun d y hd hr => knownClosure_closed g heads hd hr) targets x]
  rw [← knownClosure_iff g heads x]
  simp

theorem mem_privateRoots (g : Graph) (pip : List Nat) (c : Nat) :
    c ∈ privateRoots g pip ↔ c ∈ pip ∧ ∀ p ∈ g.parents c, p ∉ pip := by
  simp [privateRoots, List.mem_filter]

/-- Every member of the checked private set is connected, by an ancestor
chain lying entirely inside the set, to some private root. -/
theorem chain_to_privateRoot (g : Graph) (S : List Nat) :
    ∀ c, c ∈ S → ∃ r, r ∈ privateRoots g S ∧ ChainIn g S c r := by
  intro c
  induction c using Nat.strong_induction_on with
  | _ c ih =>
    intro hc
    by_cases hroot : ∀ p ∈ g.parents c, p ∉ S
    · exact ⟨c, (mem_privateRoots g S c).mpr ⟨hc, hroot⟩, ChainIn.refl hc⟩
    · push_neg at hroot
      rcases hroot with ⟨p, hp, hpS⟩
      rcases ih p (parents_lt g hp) hpS with ⟨r, hr, hchain⟩
      exact ⟨r, hr, ChainIn.step hc hp hchain⟩

theorem privateRoots_ne_nil (g : Graph) (S : List Nat) (hS : S ≠ []) :
    privateRoots g S ≠ [] := by
  rcases List.exists_mem_of_ne_nil S hS with ⟨c, hc⟩
  rcases chain_to_privateRoot g S c hc with ⟨r, hr, _⟩
  exact List.ne_nil_of_mem hr

theorem plan_push_unfold (g : Graph) (isPrivate isImmutable : Nat → Bool)
    (txt remote : String) (updates : List BookmarkUpdate) (heads : List Nat)
    (opts : PushOptions) :
    plan_push g isPrivate isImmutable txt remote updates heads opts =
      (if (mutablePrivateInPushSet isPrivate isImmutable
            (requestPushSet g heads updates)).isEmpty || opts.allow_private then
        .ok ⟨remote, updates, requestPushSet g heads updates⟩
      else
        .rejected ⟨remote,
          privateRoots g (mutablePrivateInPushSet isPrivate isImmutable
            (requestPushSet g heads updates)),
          (privateRoots g (mutablePrivateInPushSet isPrivate isImmutable
            (requestPushSet g heads updates))).map (fun c => ⟨c, txt⟩)⟩) := rfl

/-- C1, counterexample: with `immutable_heads()` covering the private
commit (as in `test_git_private_commits_are_not_checked_if_immutable`),
the spec's `PrivateInPushSet` — the private-commits predicate intersected
with the push set — is non-empty and no `allow_private` override is given,
yet `plan_push` produces a `PushPlan` rather than a `RejectedPush`. -/
theorem c1_private_in_push_set_counterexample :
    privateInPushSet demoPrivate (requestPushSet demoGraph [1] demoUpdates) ≠ [] ∧
    plan_push demoGraph demoPrivate allImmutable "description(glob:private)" "origin"
        demoUpdates [1] ⟨false, false, false⟩ =
      .ok ⟨"origin", demoUpdates, [2]⟩ := by
  constructor
  · decide
  · decide

/-- Claim C1 (amended): for every remote, if the private-commits predicate
restricted to mutable commits, intersected with that remote's push set, is
non-empty and no allow-private override is given, `plan_push` returns a
`RejectedPush` that aborts the entire push for that remote (no bookmark
update for that remote is transferred) and carries one diagnostic per
private root naming the commit and the configured predicate text. -/
theorem plan_push_rejects_on_mutable_private (g : Graph)
    (isPrivate isImmutable : Nat → Bool) (txt remote : String)
    (updates : List BookmarkUpdate) (heads : List Nat) (opts : PushOptions)
    (c : Nat)
    (hc : c ∈ mutablePrivateInPushSet isPrivate isImmutable
        (requestPushSet g heads updates))
    (hopt : opts.allow_private = false) :
    ∃ rej : RejectedPush,
      plan_push g isPrivate isImmutable txt remote updates heads opts =
        .rejected rej ∧
      rej.remote = remote ∧
      rej.private_roots =
        privateRoots g (mutablePrivateInPushSet isPrivate isImmutable
          (requestPushSet g heads updates)) ∧
      rej.private_roots ≠ [] ∧
      rej.diagnostics = rej.private_roots.map (fun r => ⟨r, txt⟩) := by
  have hne : mutablePrivateInPushSet isPrivate isImmutable
      (requestPushSet g heads updates) ≠ [] := List.ne_nil_of_mem hc
  rw [plan_push_unfold, hopt, Bool.or_false,
    if_neg (by simpa [List.isEmpty_iff] using hne)]
  exact ⟨_, rfl, rfl, rfl, privateRoots_ne_nil _ _ hne, rfl⟩

/-- Witness for C1's amended theorem, at the scenario of
`test_git_private_commits_block_pushing` (the private commit is mutable). -/
theorem plan_push_rejects_on_mutable_private_witness :
    (2 ∈ mutablePrivateInPushSet demoPrivate noneImmutable
        (requestPushSet demoGraph [1] demoUpdates)) ∧
    (∃ rej : RejectedPush,
      plan_push demoGraph demoPrivate noneImmutable "description(glob:private)"
          "origin" demoUpdates [1] ⟨false, false, false⟩ =
        .rejected rej ∧
      rej.remote = "origin" ∧
      rej.private_roots =
        privateRoots demoGraph (mutablePrivateInPushSet demoPrivate noneImmutable
          (requestPushSet demoGraph [1] demoUpdates)) ∧
      rej.private_roots ≠ [] ∧
      rej.diagnostics = rej.private_roots.map (fun r => ⟨r, "description(glob:private)"⟩)) :=
  ⟨by decide,
   plan_push_rejects_on_mutable_private demoGraph demoPrivate noneImmutable
     "description(glob:private)" "origin" demoUpdates [1] ⟨false, false, false⟩ 2
     (by decide) rfl⟩

/-- C2, counterexample: commit 1 is matched by the private-commits
predicate, is in the push set, is classified immutable, and no override is
given — yet the gate passes and `plan_push` returns a `PushPlan`, exactly
as `test_git_private_commits_are_not_checked_if_immutable` observes.  The
claim's assertion that the gate rejects regardless of immutability is
therefore false of the program. -/
theorem c2_immutable_private_counterexample :
    1 ∈ requestPushSet tinyGraph [] tinyUpdates ∧
    tinyPrivate 1 = true ∧ allImmutable 1 = true ∧
    plan_push tinyGraph tinyPrivate allImmutable "description(glob:private)"
        "origin" tinyUpdates [] ⟨true, false, false⟩ =
      .ok ⟨"origin", tinyUpdates, [1, 0]⟩ := by
  refine ⟨by decide, rfl, rfl, by decide⟩

/-- Claim C2 (amended): commits classified immutable by the
immutable-heads predicate ARE excluded from the privacy gate — if every
private commit of the push set is immutable, `plan_push` produces a
`PushPlan` with no allow-private override; only mutable private commits
can trigger a rejection. -/
theorem plan_push_passes_when_private_all_immutable (g : Graph)
    (isPrivate isImmutable : Nat → Bool) (txt remote : String)
    (updates : List BookmarkUpdate) (heads : List Nat) (opts : PushOptions)
    (h : ∀ c ∈ requestPushSet g heads updates,
        isPrivate c = true → isImmutable c = true) :
    plan_push g isPrivate isImmutable txt remote updates heads opts =
      .ok ⟨remote, updates, requestPushSet g heads updates⟩ := by
  have hempty : mutablePrivateInPushSet isPrivate isImmutable
      (requestPushSet g heads updates) = [] := by
    refine List.filter_eq_nil_iff.mpr ?_
    intro c hc
    by_cases hpr : isPrivate c = true
    · simp [hpr, h c hc hpr]
    · simp [Bool.eq_false_iff.mpr hpr]
  rw [plan_push_unfold, hempty]
  rfl

/-- Witness for C2's amended theorem, at the scenario of
`test_git_private_commits_are_not_checked_if_immutable`. -/
theorem plan_push_passes_when_private_all_immutable_witness :
    (∀ c ∈ requestPushSet tinyGraph [] tinyUpdates,
      tinyPrivate c = true → allImmutable c = true) ∧
    plan_push tinyGraph tinyPrivate allImmutable "description(glob:private)"
        "origin" tinyUpdates [] ⟨true, false, false⟩ =
      .ok ⟨"origin", tinyUpdates, requestPushSet tinyGraph [] tinyUpdates⟩ :=
  ⟨by decide,
   plan_push_passes_when_private_all_immutable tinyGraph tinyPrivate allImmutable
     "description(glob:private)" "origin" tinyUpdates [] ⟨true, false, false⟩
     (by decide)⟩

/-- Claim C3: with `allow_private = true` a push set containing private
roots still produces a `PushPlan` (not a rejection) with the same bookmark
updates and `commits_to_send`, and that plan is identical to the plan that
would be produced (under any options) if no commit were private. -/
theorem plan_push_override_bypass (g : Graph) (isPrivate isImmutable : Nat → Bool)
    (txt remote : String) (updates : List BookmarkUpdate) (heads : List Nat)
    (opts opts2 : PushOptions) (c : Nat)
    (hc : c ∈ privateRoots g (mutablePrivateInPushSet isPrivate isImmutable
        (requestPushSet g heads updates)))
    (hopt : opts.allow_private = true) :
    plan_push g isPrivate isImmutable txt remote updates heads opts =
      .ok ⟨remote, updates, requestPushSet g heads updates⟩ ∧
    plan_push g isPrivate isImmutable txt remote updates heads opts =
      plan_push g (fun _ => false) isImmutable txt remote updates heads opts2 := by
  have hnone : mutablePrivateInPushSet (fun _ => false) isImmutable
      (requestPushSet g heads updates) = [] := by
    refine List.filter_eq_nil_iff.mpr ?_
    intro x _
    simp
  have h1 : plan_push g isPrivate isImmutable txt remote updates heads opts =
      .ok ⟨remote, updates, requestPushSet g heads updates⟩ := by
    rw [plan_push_unfold, hopt, Bool.or_true]
    rfl
  have h2 : plan_push g (fun _ => false) isImmutable txt remote updates heads opts2 =
      .ok ⟨remote, updates, requestPushSet g heads updates⟩ := by
    rw [plan_push_unfold, hnone]
    rfl
  exact ⟨h1, h1.trans h2.symm⟩

/-- Witness for C3, at the scenario of
`test_git_private_commits_can_be_overridden`. -/
theorem plan_push_override_bypass_witness :
    (2 ∈ privateRoots demoGraph (mutablePrivateInPushSet demoPrivate noneImmutable
        (requestPushSet demoGraph [1] demoUpdates))) ∧
    (plan_push demoGraph demoPrivate noneImmutable "description(glob:private)"
        "origin" demoUpdates [1] ⟨false, true, false⟩ =
      .ok ⟨"origin", demoUpdates, requestPushSet demoGraph [1] demoUpdates⟩ ∧
    plan_push demoGraph demoPrivate noneImmutable "description(glob:private)"
        "origin" demoUpdates [1] ⟨false, true, false⟩ =
      plan_push demoGraph (fun _ => false) noneImmutable "description(glob:private)"
        "origin" demoUpdates [1] ⟨false, false, false⟩) :=
  ⟨by decide,
   plan_push_override_bypass demoGraph demoPrivate noneImmutable
     "description(glob:private)" "origin" demoUpdates [1]
     ⟨false, true, false⟩ ⟨false, false, false⟩ 2 (by decide) rfl⟩

/-- Claim C4: a commit in the known-commits closure of a remote is excluded
from that remote's push set — and hence from `PrivateInPushSet` — even if
it is matched by the private-commits predicate and reachable from a
requested new bookmark target; consequently, when every private commit
reachable from the requested targets is already known on the remote, the
push passes the gate with no override. -/
theorem known_commits_excluded_from_gate (g : Graph)
    (isPrivate isImmutable : Nat → Bool) (txt remote : String)
    (updates : List BookmarkUpdate) (heads : List Nat) (opts : PushOptions)
    (c : Nat) (hk : knownClosure g heads c = true) (hpr : isPrivate c = true) :
    c ∉ requestPushSet g heads updates ∧
    c ∉ privateInPushSet isPrivate (requestPushSet g heads updates) ∧
    ((∀ x, (∃ t ∈ updates.filterMap (fun u => u.new), Reach g t x) →
        isPrivate x = true → knownClosure g heads x = true) →
      plan_push g isPrivate isImmutable txt remote updates heads opts =
        .ok ⟨remote, updates, requestPushSet g heads updates⟩) := by
  have hclosed : ∀ d y, knownClosure g heads d = true → Reach g d y →
      knownClosure g heads y = true :=
    fun d y hd hr => knownClosure_closed g heads hd hr
  have hnotps : c ∉ requestPushSet g heads updates := by
    intro hmem
    have hmem2 : c ∈ pushSetResolve g (knownClosure g heads)
        (updates.filterMap (fun u => u.new)) := hmem
    have := (mem_pushSetResolve g (knownClosure g heads) hclosed
      (updates.filterMap (fun u => u.new)) c).mp hmem2
    rw [hk] at this
    exact absurd this.2 (by simp)
  refine ⟨hnotps, ?_, ?_⟩
  · intro hmem
    exact hnotps (List.mem_filter.mp hmem).1
  · intro hall
    have hempty : mutablePrivateInPushSet isPrivate isImmutable
        (requestPushSet g heads updates) = [] := by
      refine List.filter_eq_nil_iff.mpr ?_
      intro x hx
      have hx2 : x ∈ pushSetResolve g (knownClosure g heads)
          (updates.filterMap (fun u => u.new)) := hx
      have hchar := (mem_pushSetResolve g (knownClosure g heads) hclosed
        (updates.filterMap (fun u => u.new)) x).mp hx2
      by_cases hxpr : isPrivate x = true
      · have := hall x hchar.1 hxpr
        rw [this] at hchar
        exact absurd hchar.2 (by simp)
      · simp [Bool.eq_false_iff.mpr hxpr]
    rw [plan_push_unfold, hempty]
    rfl

/-- Witness for C4 at the already-on-the-remote scenario: the private
commit 2 is excluded from the push set and from `PrivateInPushSet`, and
since all private commits reachable from the new target are known on the
remote, the push passes with no override. -/
theorem known_commits_excluded_from_gate_witness :
    (knownClosure knownGraph [2] 2 = true ∧ knownPrivate 2 = true) ∧
    (2 ∉ requestPushSet knownGraph [2] knownUpdates ∧
    2 ∉ privateInPushSet knownPrivate (requestPushSet knownGraph [2] knownUpdates) ∧
    ((∀ x, (∃ t ∈ knownUpdates.filterMap (fun u => u.new), Reach knownGraph t x) →
        knownPrivate x = true → knownClosure knownGraph [2] x = true) →
      plan_push knownGraph knownPrivate noneImmutable "description(glob:private)"
          "origin" knownUpdates [2] ⟨true, false, false⟩ =
        .ok ⟨"origin", knownUpdates, requestPushSet knownGraph [2] knownUpdates⟩)) :=
  ⟨⟨by decide, rfl⟩,
   known_commits_excluded_from_gate knownGraph knownPrivate noneImmutable
     "description(glob:private)" "origin" knownUpdates [2] ⟨true, false, false⟩ 2
     (by decide) rfl⟩

/-- Claim C5: the push set for a remote equals ancestors of the requested
new targets minus the ancestor closure of that remote's known commits — a
commit is in the resolved push set iff it is reachable from some requested
target and not reachable from any known head; in particular a commit
reachable from a known head is never in the push set, and a commit that is
not an ancestor of any requested target is never in the push set and never
reaches the gate's private sets. -/
theorem pushSet_eq_ancestors_minus_known (g : Graph)
    (isPrivate isImmutable : Nat → Bool) (heads targets : List Nat) (c : Nat) :
    (c ∈ pushSetResolve g (knownClosure g heads) targets ↔
      ((∃ t ∈ targets, Reach g t c) ∧ ¬ ∃ h ∈ heads, Reach g h c)) ∧
    ((∃ h ∈ heads, Reach g h c) →
      c ∉ pushSetResolve g (knownClosure g heads) targets) ∧
    ((¬ ∃ t ∈ targets, Reach g t c) →
      c ∉ pushSetResolve g (knownClosure g heads) targets ∧
      c ∉ privateInPushSet isPrivate (pushSetResolve g (knownClosure g heads) targets) ∧
      c ∉ mutablePrivateInPushSet isPrivate isImmutable
        (pushSetResolve g (knownClosure g heads) targets)) := by
  have hiff := mem_pushSet_known g heads targets c
  refine ⟨hiff, ?_, ?_⟩
  · intro hknown hmem
    exact absurd hknown ((hiff.mp hmem).2)
  · intro hnot
    have hout : c ∉ pushSetResolve g (knownClosure g heads) targets := by
      intro hmem
      exact absurd (hiff.mp hmem).1 hnot
    exact ⟨hout,
      fun hmem => hout (List.mem_filter.mp hmem).1,
      fun hmem => hout (List.mem_filter.mp hmem).1⟩

/-- Witness for C5, instantiated at the descending-from-pushed scenario of
`test_git_private_commits_descending_from_commits_pushed_do_not_block_pushing`:
commit 3 descends from the pushed target 2, so it is not an ancestor of
the target and stays out of the push set and of the private sets. -/
theorem pushSet_eq_ancestors_minus_known_witness :
    ((3 ∈ pushSetResolve knownGraph (knownClosure knownGraph [1]) [2] ↔
      ((∃ t ∈ [2], Reach knownGraph t 3) ∧ ¬ ∃ h ∈ [1], Reach knownGraph h 3)) ∧
    ((∃ h ∈ [1], Reach knownGraph h 3) →
      3 ∉ pushSetResolve knownGraph (knownClosure knownGraph [1]) [2]) ∧
    ((¬ ∃ t ∈ [2], Reach knownGraph t 3) →
      3 ∉ pushSetResolve knownGraph (knownClosure knownGraph [1]) [2] ∧
      3 ∉ privateInPushSet knownPrivate
        (pushSetResolve knownGraph (knownClosure knownGraph [1]) [2]) ∧
      3 ∉ mutablePrivateInPushSet knownPrivate noneImmutable
        (pushSetResolve knownGraph (knownClosure knownGraph [1]) [2]))) :=
  pushSet_eq_ancestors_minus_known knownGraph knownPrivate noneImmutable [1] [2] 3

/-- Claim C6: the reported private root set is exactly the minimal-root
subset of the gate's private-in-push set: a commit is a root iff it is in
the set and none of its parents is; and every commit of the set is linked
by an ancestor chain lying entirely within the set to some root.  The
gate's private-in-push set is the mutable part of the private commits of
the push set (immutable commits are excluded per C1/C2). -/
theorem privateRoots_minimal_and_covering (g : Graph)
    (isPrivate isImmutable : Nat → Bool) (heads : List Nat)
    (updates : List BookmarkUpdate) :
    (∀ c, c ∈ privateRoots g (mutablePrivateInPushSet isPrivate isImmutable
          (requestPushSet g heads updates)) ↔
        (c ∈ mutablePrivateInPushSet isPrivate isImmutable
          (requestPushSet g heads updates) ∧
        ∀ p ∈ g.parents c, p ∉ mutablePrivateInPushSet isPrivate isImmutable
          (requestPushSet g heads updates))) ∧
    (∀ c ∈ mutablePrivateInPushSet isPrivate isImmutable
        (requestPushSet g heads updates),
      ∃ r, r ∈ privateRoots g (mutablePrivateInPushSet isPrivate isImmutable
          (requestPushSet g heads updates)) ∧
        ChainIn g (mutablePrivateInPushSet isPrivate isImmutable
          (requestPushSet g heads updates)) c r) :=
  ⟨fun c => mem_privateRoots g _ c, fun c hc => chain_to_privateRoot g _ c hc⟩

/-- Witness for C6 at the merge scenario, plus a concrete check that the
minimal root there is exactly the private commit 1. -/
theorem privateRoots_minimal_and_covering_witness :
    ((∀ c, c ∈ privateRoots mergeGraph (mutablePrivateInPushSet mergePrivate
          noneImmutable (requestPushSet mergeGraph [2] mergeUpdates)) ↔
        (c ∈ mutablePrivateInPushSet mergePrivate noneImmutable
          (requestPushSet mergeGraph [2] mergeUpdates) ∧
        ∀ p ∈ mergeGraph.parents c, p ∉ mutablePrivateInPushSet mergePrivate
          noneImmutable (requestPushSet mergeGraph [2] mergeUpdates))) ∧
    (∀ c ∈ mutablePrivateInPushSet mergePrivate noneImmutable
        (requestPushSet mergeGraph [2] mergeUpdates),
      ∃ r, r ∈ privateRoots mergeGraph (mutablePrivateInPushSet mergePrivate
          noneImmutable (requestPushSet mergeGraph [2] mergeUpdates)) ∧
        ChainIn mergeGraph (mutablePrivateInPushSet mergePrivate noneImmutable
          (requestPushSet mergeGraph [2] mergeUpdates)) c r)) ∧
    privateRoots mergeGraph (mutablePrivateInPushSet mergePrivate noneImmutable
      (requestPushSet mergeGraph [2] mergeUpdates)) = [1] :=
  ⟨privateRoots_minimal_and_covering mergeGraph mergePrivate noneImmutable [2]
     mergeUpdates,
   by decide⟩

/-- Claim C7: planning is independent per remote — the entry computed for
each remote of a multi-remote invocation is a function of that remote's
own request (updates and tracking state) alone, so a gate failure for one
remote never alters another remote's plan; concretely, in the
divergent-remote session exactly mirroring
`test_git_private_commits_are_evaluated_separately_for_each_remote`, the
same private commit 2 passes for `origin` (which already knows it) and
roots the rejection for `other` in the same invocation. -/
theorem plan_push_per_remote_independence :
    (∀ (g : Graph) (isPrivate isImmutable : Nat → Bool) (txt : String)
        (reqs : List RemoteRequest) (opts : PushOptions) (i : Nat),
      (plan_push_all g isPrivate isImmutable txt reqs opts)[i]? =
        (reqs[i]?).map (fun r =>
          (r.remote, plan_push g isPrivate isImmutable txt r.remote r.updates
            r.knownHeads opts))) ∧
    plan_push_all knownGraph knownPrivate noneImmutable "description(glob:private)"
        divergentRequests ⟨false, false, false⟩ =
      [("origin", .ok ⟨"origin", [⟨"main", some 1, some 3⟩], []⟩),
       ("other", .rejected ⟨"other", [2],
          [⟨2, "description(glob:private)"⟩]⟩)] := by
  constructor
  · intro g isPrivate isImmutable txt reqs opts i
    simp [plan_push_all]
  · decide

/-- Claim C8: `plan_push` is deterministic and side-effect free — a
planning session returns the tracking store unchanged (the planner never
mutates tracking state, on error paths included), and re-invoking the
session with the same inputs and the tracking store left by the first
invocation yields a bit-identical result. -/
theorem plan_push_session_idempotent (g : Graph)
    (isPrivate isImmutable : Nat → Bool) (txt : String)
    (reqs : List (String × List BookmarkUpdate)) (opts : PushOptions)
    (tracking : List (String × List Nat)) :
    (plan_push_session g isPrivate isImmutable txt reqs opts tracking).2 =
      tracking ∧
    plan_push_session g isPrivate isImmutable txt reqs opts
        ((plan_push_session g isPrivate isImmutable txt reqs opts tracking).2) =
      plan_push_session g isPrivate isImmutable txt reqs opts tracking :=
  ⟨rfl, rfl⟩

end JJ

namespace TimeUtil

theorem itemOk_eq_some {item it : FItem} (h : itemOk item = some it) :
    it = item ∧ item ≠ FItem.error := by
  cases item with
  | error => simp [itemOk] at h
  | literal s => simp [itemOk] at h; subst h; exact ⟨rfl, by simp⟩
  | ownedLiteral s => simp [itemOk] at h; subst h; exact ⟨rfl, by simp⟩
  | space s => simp [itemOk] at h; subst h; exact ⟨rfl, by simp⟩
  | ownedSpace s => simp [itemOk] at h; subst h; exact ⟨rfl, by simp⟩
  | numeric spec pad => simp [itemOk] at h; subst h; exact ⟨rfl, by simp⟩
  | fixed spec => simp [itemOk] at h; subst h; exact ⟨rfl, by simp⟩

theorem collectNonError_some (l : List FItem) :
    ∀ items, collectNonError l = some items →
      items = l ∧ FItem.error ∉ l := by
  induction l with
  | nil =>
    intro items h
    simp [collectNonError] at h
    simp [h]
  | cons i rest ih =>
    intro items h
    simp only [collectNonError] at h
    cases hik : itemOk i with
    | none => rw [hik] at h; cases h
    | some it =>
      rw [hik] at h
      cases hrest : collectNonError rest with
      | none => rw [hrest] at h; cases h
      | some items2 =>
        rw [hrest] at h
        have hinj : it :: items2 = items := Option.some.inj h
        rcases ih items2 hrest with ⟨heq, hnot⟩
        rcases itemOk_eq_some hik with ⟨hit, hne⟩
        subst heq
        subst hit
        constructor
        · exact hinj.symm
        · intro hmem
          rcases List.mem_cons.mp hmem with hh | hh
          · exact hne hh.symm
          · exact hnot hh

theorem renderItem_of_ne_error (dt : ChronoDateTime) (i : FItem)
    (hi : i ≠ FItem.error) : ∃ s, renderItem dt i = some s := by
  cases i with
  | error => exact absurd rfl hi
  | literal s => exact ⟨s, rfl⟩
  | ownedLiteral s => exact ⟨s, rfl⟩
  | space s => exact ⟨s, rfl⟩
  | ownedSpace s => exact ⟨s, rfl⟩
  | numeric spec pad => exact ⟨_, rfl⟩
  | fixed spec => exact ⟨_, rfl⟩

theorem renderAll_of_no_error (dt : ChronoDateTime) (l : List FItem)
    (h : FItem.error ∉ l) : ∃ ss, renderAll dt l = some ss := by
  induction l with
  | nil => exact ⟨[], rfl⟩
  | cons i rest ih =>
    have hi : i ≠ FItem.error := fun hh => h (hh ▸ List.mem_cons_self i rest)
    have hrest : FItem.error ∉ rest := fun hh => h (List.mem_cons_of_mem i hh)
    rcases ih hrest with ⟨ss, hss⟩
    rcases renderItem_of_ne_error dt i hi with ⟨s, hs⟩
    refine ⟨s :: ss, ?_⟩
    simp only [renderAll]
    rw [hs, hss]

theorem into_owned_no_error (fi : FormattingItems)
    (h : FItem.error ∉ fi.items) : FItem.error ∉ fi.into_owned.items := by
  intro hmem
  rcases List.mem_map.mp hmem with ⟨i, hi, heq⟩
  cases i with
  | error => exact h hi
  | literal s => exact FItem.noConfusion heq
  | ownedLiteral s => exact FItem.noConfusion heq
  | space s => exact FItem.noConfusion heq
  | ownedSpace s => exact FItem.noConfusion heq
  | numeric spec pad => exact FItem.noConfusion heq
  | fixed spec => exact FItem.noConfusion heq

/-- Claim C9: `FormattingItems::parse` returns `None` whenever the
strftime tokenization contains an `Error` item (equivalently: a
successful parse implies the tokenization had none), every successfully
constructed `FormattingItems` contains no error item (also after
`into_owned`), and `format_absolute_timestamp_with` never panics for any
timestamp whose datetime conversion succeeds. -/
theorem parse_excludes_error_items (tokenized : List FItem)
    (fi : FormattingItems) (ts : Timestamp) (dt : ChronoDateTime)
    (hp : FormattingItems.parse tokenized = some fi)
    (hts : datetime_from_timestamp ts = .ok dt) :
    FItem.error ∉ tokenized ∧
    FItem.error ∉ fi.items ∧
    FItem.error ∉ fi.into_owned.items ∧
    ∃ s, format_absolute_timestamp_with ts fi = some (.ok s) := by
  have hcoll : collectNonError tokenized = some fi.items := by
    unfold FormattingItems.parse at hp
    cases hc : collectNonError tokenized with
    | none => rw [hc] at hp; cases hp
    | some items => rw [hc] at hp; cases hp; rfl
  rcases collectNonError_some tokenized fi.items hcoll with ⟨heq, hnot⟩
  have herr : FItem.error ∉ fi.items := by rw [heq]; exact hnot
  rcases renderAll_of_no_error dt fi.items herr with ⟨ss, hss⟩
  refine ⟨hnot, herr, into_owned_no_error fi herr, String.join ss, ?_⟩
  simp only [format_absolute_timestamp_with, hts, hss]

/-- Witness for C9 at a concrete two-item format and the epoch timestamp. -/
theorem parse_excludes_error_items_witness :
    (FormattingItems.parse [FItem.literal "a", FItem.space " "] =
      some ⟨[FItem.literal "a", FItem.space " "]⟩ ∧
    datetime_from_timestamp ⟨0, 0⟩ = .ok ⟨0, 0, 0⟩) ∧
    (FItem.error ∉ [FItem.literal "a", FItem.space " "] ∧
    FItem.error ∉ (⟨[FItem.literal "a", FItem.space " "]⟩ : FormattingItems).items ∧
    FItem.error ∉ (⟨[FItem.literal "a", FItem.space " "]⟩ : FormattingItems).into_owned.items ∧
    ∃ s, format_absolute_timestamp_with ⟨0, 0⟩
        ⟨[FItem.literal "a", FItem.space " "]⟩ = some (.ok s)) :=
  ⟨⟨by decide, by decide⟩,
   parse_excludes_error_items [FItem.literal "a", FItem.space " "]
     ⟨[FItem.literal "a", FItem.space " "]⟩ ⟨0, 0⟩ ⟨0, 0, 0⟩ (by decide) (by decide)⟩

/-- C10, counterexample: for the epoch instant with a 26-hour timezone
offset, `datetime_from_timestamp` succeeds (chrono's `FixedOffset` only
tolerates offsets below ±24h, and the code falls back to UTC there) and
the chrono duration conversion succeeds (the duration is zero), yet
`Offset::from_seconds(1560 * 60)` exceeds jiff's ±25:59:59 offset range,
so the first `timestamp_to_jiff(..).unwrap()` panics: `format_duration`
panics instead of returning `Ok`. -/
theorem format_duration_panic_counterexample :
    datetime_from_timestamp panicTimestamp = .ok ⟨0, 0, 0⟩ ∧
    timestamp_to_jiff panicTimestamp = .error .mk ∧
    format_duration panicTimestamp panicTimestamp = none := by
  refine ⟨by decide, by decide, by decide⟩

/-- Claim C10 (amended): `format_duration` cannot panic and returns `Ok`
provided that, in addition to both datetime conversions succeeding and
the chrono duration being non-negative, both timestamps lie within
jiff's documented ranges — offset within ±93599 seconds and seconds
within jiff's timestamp range.  The added hypotheses are necessary: the
hypotheses of the original claim admit the recorded counterexample
because chrono's offset fallback and wider date range mask inputs jiff
rejects, making both `unwrap` calls reachable panic sites. -/
theorem format_duration_ok_within_jiff_range (fromTs toTs : Timestamp)
    (dtFrom dtTo : ChronoDateTime)
    (hfrom : datetime_from_timestamp fromTs = .ok dtFrom)
    (hto : datetime_from_timestamp toTs = .ok dtTo)
    (hdur : 0 ≤ (dtTo.secs * 1000000000 + dtTo.nanos) -
        (dtFrom.secs * 1000000000 + dtFrom.nanos))
    (hofrom : -jiffMaxOffsetSecs ≤ fromTs.tz_offset * 60 ∧
        fromTs.tz_offset * 60 ≤ jiffMaxOffsetSecs)
    (hoto : -jiffMaxOffsetSecs ≤ toTs.tz_offset * 60 ∧
        toTs.tz_offset * 60 ≤ jiffMaxOffsetSecs)
    (hsfrom : jiffMinSecs ≤ fromTs.millis.ediv 1000 ∧
        fromTs.millis.ediv 1000 ≤ jiffMaxSecs)
    (hsto : jiffMinSecs ≤ toTs.millis.ediv 1000 ∧
        toTs.millis.ediv 1000 ≤ jiffMaxSecs) :
    ∃ s, format_duration fromTs toTs = some (.ok s) := by
  have hjfrom : timestamp_to_jiff fromTs =
      .ok ⟨fromTs.millis.ediv 1000, fromTs.millis.emod 1000 * 1000000,
        fromTs.tz_offset * 60⟩ := by
    unfold timestamp_to_jiff
    rw [if_pos hofrom, if_pos hsfrom]
  have hjto : timestamp_to_jiff toTs =
      .ok ⟨toTs.millis.ediv 1000, toTs.millis.emod 1000 * 1000000,
        toTs.tz_offset * 60⟩ := by
    unfold timestamp_to_jiff
    rw [if_pos hoto, if_pos hsto]
  simp only [format_duration, hto, hfrom, hjfrom, hjto]
  rw [if_neg (by omega)]
  exact ⟨_, rfl⟩

/-- Witness for C10's amended theorem: five seconds apart, offset one
hour, all jiff ranges satisfied. -/
theorem format_duration_ok_within_jiff_range_witness :
    (datetime_from_timestamp ⟨0, 60⟩ = .ok ⟨0, 0, 3600⟩ ∧
    datetime_from_timestamp ⟨5000, 60⟩ = .ok ⟨5, 0, 3600⟩ ∧
    0 ≤ ((5 : Int) * 1000000000 + 0) - ((0 : Int) * 1000000000 + 0)) ∧
    ∃ s, format_duration ⟨0, 60⟩ ⟨5000, 60⟩ = some (.ok s) :=
  ⟨⟨by decide, by decide, by decide⟩,
   format_duration_ok_within_jiff_range ⟨0, 60⟩ ⟨5000, 60⟩ ⟨0, 0, 3600⟩ ⟨5, 0, 3600⟩
     (by decide) (by decide) (by decide) (by decide) (by decide) (by decide)
     (by decide)⟩

end TimeUtil
